import Mathlib

/-! Filters: integer codec, power-of-two rounding and the Bloom filter engine.

Shallow embedding of the helpers of `filter/utils.go` (`SerializeUint`,
`DeserializeUint`, `NextPowerOfTwo`) and of the Bloom filter engine that is
built on them.

Conventions of the embedding:

* a Go `byte` is a `Nat` below `256`, a `uint32` a `Nat` below `2^32`, a
  `uint64` a `Nat` below `2^64`; arithmetic that can wrap is reduced
  explicitly (`% 2^32`, `% 2^64`);
* a `*bytes.Buffer` is the list of its unread bytes: `Write` appends at the
  end, `Read` consumes from the front.
-/

namespace Filters

/-! ## `bytes.Buffer` -/

/-- The unread portion of a `bytes.Buffer`. -/
abbrev Buffer := List Nat

/-- Every element of the buffer is a byte. -/
def Buffer.IsBytes (buf : Buffer) : Prop := ∀ b ∈ buf, b < 256

instance (buf : Buffer) : Decidable (Buffer.IsBytes buf) := by
  unfold Buffer.IsBytes; infer_instance

/-- The call `buf.Write(p)`: the bytes of `p` are appended to the buffer. -/
def Buffer.Write (buf : Buffer) (p : List Nat) : Buffer := buf ++ p

/-- The call `buf.Read(p)`: copies `min(len(p), buf.Len())` unread bytes over the
front of `p` and consumes them; the tail of `p` keeps its content.  The
result is the new `p` and the new buffer (the byte count and the `io.EOF`
error of the Go API are dropped by the caller). -/
def Buffer.Read (buf : Buffer) (p : List Nat) : List Nat × Buffer :=
  let n := min p.length buf.length
  (buf.take n ++ p.drop n, buf.drop n)

/-! ## `SerializeUint` / `DeserializeUint` -/

/-- The loop body of `SerializeUint`: `byteData[i] = byte(value >> (i * 8))`.
For a `uint64` value the shift of naturals agrees with the Go shift, which
yields `0` once the count reaches `64`. -/
def serializeStep (value : Nat) (byteData : List Nat) (i : Nat) : List Nat :=
  byteData.set i ((value >>> (i * 8)) % 256)

/-- Embedding of `SerializeUint(buf, value, size)`: a zeroed slice of `size`
bytes is filled by the loop `for i := range size` and written to the buffer. -/
def SerializeUint (buf : Buffer) (value : Nat) (size : Nat) : Buffer :=
  let byteData := List.replicate size 0
  let byteData := (List.range size).foldl (serializeStep value) byteData
  Buffer.Write buf byteData

/-- The two instantiations of the type parameter `T uint64 | uint32`. -/
inductive UintT where
  | uint64
  | uint32
  deriving DecidableEq

/-- Bit width of the instantiated type. -/
def UintT.bits : UintT → Nat
  | .uint64 => 64
  | .uint32 => 32

/-- The loop body of `DeserializeUint`:
`value |= uint64(byteData[i]) << (i * 8)` on a `uint64` accumulator; the left
shift drops the bits that leave the 64-bit word. -/
def deserializeStep (byteData : List Nat) (value : Nat) (i : Nat) : Nat :=
  value ||| ((byteData.getD i 0) <<< (i * 8)) % 2 ^ 64

/-- Embedding of `DeserializeUint[T](buf, size)`: a zeroed slice of `size`
bytes is filled by `buf.Read`, folded into a `uint64` by the loop
`for i := range size`, and converted to `T`.  Returns the value and the
buffer after the read. -/
def DeserializeUint (T : UintT) (buf : Buffer) (size : Nat) : Nat × Buffer :=
  let byteData := List.replicate size 0
  let r := Buffer.Read buf byteData
  let value := (List.range size).foldl (deserializeStep r.1) 0
  (value % 2 ^ T.bits, r.2)

/-- Little-endian value of the first `k` bytes of a slice (bytes past the end
count as zero): the sum of `b_i * 256^i` over `i < k`. -/
def leSum (bd : List Nat) (k : Nat) : Nat :=
  ∑ i in Finset.range k, bd.getD i 0 * 256 ^ i

/-- Writes the fields `(value, size)` one after another with `SerializeUint`. -/
def writeFields (buf : Buffer) : List (Nat × Nat) → Buffer
  | [] => buf
  | f :: fs => writeFields (SerializeUint buf f.1 f.2) fs

/-- Reads fields of the given sizes one after another with
`DeserializeUint[uint64]`; returns the values read and the buffer left. -/
def readFields (buf : Buffer) : List Nat → List Nat × Buffer
  | [] => ([], buf)
  | size :: sizes =>
    let r := DeserializeUint .uint64 buf size
    let rs := readFields r.2 sizes
    (r.1 :: rs.1, rs.2)

/-! ## `NextPowerOfTwo` -/

/-- Embedding of `NextPowerOfTwo(n uint32) uint32`; the decrement and the
increment wrap modulo `2^32`. -/
def NextPowerOfTwo (n : Nat) : Nat :=
  let n := (n + (2 ^ 32 - 1)) % 2 ^ 32
  let n := n ||| (n >>> 1)
  let n := n ||| (n >>> 2)
  let n := n ||| (n >>> 4)
  let n := n ||| (n >>> 8)
  let n := n ||| (n >>> 16)
  let n := (n + 1) % 2 ^ 32
  n

/-- The five smearing steps in the middle of `NextPowerOfTwo`, on their own. -/
def smear (m : Nat) : Nat :=
  let n := m ||| (m >>> 1)
  let n := n ||| (n >>> 2)
  let n := n ||| (n >>> 4)
  let n := n ||| (n >>> 8)
  let n := n ||| (n >>> 16)
  n

/-! ## The Bloom filter engine (`filter/bloom`)

The file `filter/bloom/filter.go` is not among the sources; only its test
file is.  The engine is therefore modelled from the specification, on top of
the helpers of `filter/utils.go` embedded above.  Field names (`M`, `K`,
`Seed`, `Bits`) are the ones the test file uses. -/

/-- Modelled from the spec: the Filter aggregate of section 3, whose Go
declaration (`filter/bloom/filter.go`) is missing.  `M` is `bitLength`, `K` is
`hashRounds`, `Seed` the seed and `Bits` the packed 64-bit words. -/
structure BloomFilter where
  M : Nat
  K : Nat
  Seed : Nat
  Bits : List Nat
  deriving DecidableEq

/-- Modelled from the spec: the error taxonomy of section 7. -/
inductive FilterError where
  | InvalidParameter
  | DecodeError
  deriving DecidableEq

/-- Modelled from the spec: the real-valued arithmetic of the Sizing
Calculator (section 4.1), which has no exact executable counterpart.
`mRaw n p` stands for `ceil(-(n * ln p) / (ln 2)^2)` and `kRound m n` for
`round((m / n) * ln 2)`; the results below hold for every such pair of
functions. -/
structure SizingMath where
  mRaw : Nat → ℚ → Nat
  kRound : Nat → Nat → Nat

/-- Modelled from the spec: the fast non-cryptographic 64-bit hash of section
4.2, which the spec leaves open: two base hash values computed from the
input bytes and the seed. -/
structure BaseHash where
  h1 : List Nat → Nat → Nat
  h2 : List Nat → Nat → Nat

/-- Modelled from the spec: the number of 64-bit words that cover `bitLength`
bits, "rounded up to the next whole word" (section 3). -/
def wordCount (bitLength : Nat) : Nat := (bitLength + 63) / 64

/-- Modelled from the spec: `NewBloomFilter(n, p)` of the missing
`filter/bloom/filter.go`, after section 4.1: `p` outside `(0,1)` fails with
`InvalidParameter`, `n = 0` is treated as `1`, the raw bit count is rounded with
`NextPowerOfTwo` (a `uint32` function, so the raw count is converted to
`uint32`), a zero bit length is clamped to `64`, and the number of hash rounds
is at least `1`.  The seed is chosen by the caller of the model. -/
def NewBloomFilter (S : SizingMath) (n : Nat) (p : ℚ) (seed : Nat) :
    Except FilterError BloomFilter :=
  if 0 < p ∧ p < 1 then
    let n := if n = 0 then 1 else n
    let m := NextPowerOfTwo (S.mRaw n p % 2 ^ 32)
    let m := if m = 0 then 64 else m
    let k := max 1 (S.kRound m n)
    .ok { M := m, K := k, Seed := seed, Bits := List.replicate (wordCount m) 0 }
  else
    .error .InvalidParameter

/-- Modelled from the spec: Hash Derivation (section 4.2) of the missing
`filter/bloom/filter.go`: `index_i = (h1 + i*h2) mod bitLength` for
`i = 0 .. hashRounds-1`. -/
def Hash (H : BaseHash) (f : BloomFilter) (data : List Nat) : List Nat :=
  (List.range f.K).map (fun i => (H.h1 data f.Seed + i * H.h2 data f.Seed) % f.M)

/-- Modelled from the spec: `SetBit(index)` of section 4.3: bit `i` lives at word
`i / 64`, offset `i % 64`.  An index outside `[0, bitLength)` or outside the
slice fails fast (`none`). -/
def SetBit (f : BloomFilter) (index : Nat) : Option BloomFilter :=
  if index < f.M ∧ index / 64 < f.Bits.length then
    some { f with
      Bits := f.Bits.set (index / 64) (f.Bits.getD (index / 64) 0 ||| (1 <<< (index % 64))) }
  else
    none

/-- Modelled from the spec: `TestBit(index)` of section 4.3, with the same
failure mode as `SetBit`. -/
def TestBit (f : BloomFilter) (index : Nat) : Option Bool :=
  if index < f.M ∧ index / 64 < f.Bits.length then
    some ((f.Bits.getD (index / 64) 0 >>> (index % 64)) &&& 1 != 0)
  else
    none

/-- The bit of absolute index `i` in a packed bit vector. -/
def bitAt (bits : List Nat) (i : Nat) : Bool := (bits.getD (i / 64) 0).testBit (i % 64)

/-- Modelled from the spec: the loop of `Insert` (section 4.4), which sets the
bit of each derived index in order. -/
def setBits (f : BloomFilter) : List Nat → Option BloomFilter
  | [] => some f
  | h :: hs =>
    match SetBit f h with
    | none => none
    | some g => setBits g hs

/-- Modelled from the spec: the loop of `Exist` (section 4.4), which tests the
bit of each derived index in order and returns false at the first unset bit. -/
def testBits (f : BloomFilter) : List Nat → Option Bool
  | [] => some true
  | h :: hs =>
    match TestBit f h with
    | none => none
    | some false => some false
    | some true => testBits f hs

/-- Modelled from the spec: `Insert(data)` of section 4.4 (missing
`filter/bloom/filter.go`): derive the indices, set each bit. -/
def Insert (H : BaseHash) (f : BloomFilter) (data : List Nat) : Option BloomFilter :=
  setBits f (Hash H f data)

/-- Modelled from the spec: `Exist(data)` of section 4.4 (missing
`filter/bloom/filter.go`): derive the indices, true iff every bit is set. -/
def Exist (H : BaseHash) (f : BloomFilter) (data : List Nat) : Option Bool :=
  testBits f (Hash H f data)

/-- A history of `Insert` calls, oldest first. -/
def insertAll (H : BaseHash) (f : BloomFilter) : List (List Nat) → Option BloomFilter
  | [] => some f
  | x :: xs =>
    match Insert H f x with
    | none => none
    | some g => insertAll H g xs

/-- Number of bytes of a fixed-width field of type `T`. -/
def UintT.bytes (T : UintT) : Nat := T.bits / 8

/-- Modelled from the spec: the fixed widths of the three header fields of the
persisted layout (section 6), which the spec does not number; each is one of
the two integer types `DeserializeUint` is instantiated at. -/
structure Layout where
  mT : UintT
  kT : UintT
  seedT : UintT

/-- Size in bytes of the header `bitLength, hashRounds, seed`. -/
def Layout.headerSize (L : Layout) : Nat := L.mT.bytes + L.kT.bytes + L.seedT.bytes

/-- Modelled from the spec: `Serialize()` of section 4.5 (missing
`filter/bloom/filter.go`): the three header fields, then the words of the bit
vector, 8 bytes each, all written with `SerializeUint`. -/
def Serialize (L : Layout) (f : BloomFilter) : Buffer :=
  let buf : Buffer := []
  let buf := SerializeUint buf f.M L.mT.bytes
  let buf := SerializeUint buf f.K L.kT.bytes
  let buf := SerializeUint buf f.Seed L.seedT.bytes
  writeFields buf (f.Bits.map (fun w => (w, 8)))

/-- Modelled from the spec: `Deserialize(bytes)` of section 4.5 (missing
`filter/bloom/filter.go`): input too short for the header, or for the word
count of the declared `bitLength`, is rejected with `DecodeError`; otherwise
the fields are read back with `DeserializeUint`.  The word count is the one of
the bit vector (section 3), which for a `bitLength` that is a multiple of 64 is
the `bitLength/64` of the layout table. -/
def Deserialize (L : Layout) (data : Buffer) : Except FilterError BloomFilter :=
  if data.length < L.headerSize then
    .error .DecodeError
  else
    let rM := DeserializeUint L.mT data L.mT.bytes
    let rK := DeserializeUint L.kT rM.2 L.kT.bytes
    let rSeed := DeserializeUint L.seedT rK.2 L.seedT.bytes
    let n := wordCount rM.1
    if rSeed.2.length < 8 * n then
      .error .DecodeError
    else
      let rBits := readFields rSeed.2 (List.replicate n 8)
      .ok { M := rM.1, K := rK.1, Seed := rSeed.1, Bits := rBits.1 }

/-- The invariants of a filter: a positive bit length covered by the words of
the bit vector, each word a `uint64`. -/
def BloomFilter.Valid (f : BloomFilter) : Prop :=
  0 < f.M ∧ f.Bits.length = wordCount f.M ∧ ∀ w ∈ f.Bits, w < 2 ^ 64

/-- The header fields of the filter fit the fixed-width types of the layout. -/
def BloomFilter.Fits (L : Layout) (f : BloomFilter) : Prop :=
  f.M < 2 ^ L.mT.bits ∧ f.K < 2 ^ L.kT.bits ∧ f.Seed < 2 ^ L.seedT.bits

/-- A sample sizing oracle (ten bits per item, `m / n` rounds). -/
def sampleSizing : SizingMath where
  mRaw := fun n _ => 10 * n
  kRound := fun m n => m / n

/-- A sample base hash (byte sum and length, mixed with the seed). -/
def sampleHash : BaseHash where
  h1 := fun data seed => data.sum + seed
  h2 := fun data seed => 2 * data.length + seed + 1

/-- A sample layout: `uint32` bit length and rounds, `uint64` seed. -/
def sampleLayout : Layout where
  mT := .uint32
  kT := .uint32
  seedT := .uint64

end Filters

namespace Filters

/-! ## Lemmas on the encode loop -/

theorem serializeLoop_upto (value size : Nat) :
    ∀ k, k ≤ size →
      (List.range k).foldl (serializeStep value) (List.replicate size 0) =
        (List.range k).map (fun i => (value >>> (i * 8)) % 256) ++ List.replicate (size - k) 0 := by
  intro k
  induction k with
  | zero => intro _; simp
  | succ k ih =>
    intro hk
    rw [List.range_succ, List.foldl_append, ih (by omega)]
    simp only [List.foldl_cons, List.foldl_nil, serializeStep, List.map_append, List.map_cons,
      List.map_nil]
    have hlen : ((List.range k).map (fun i => (value >>> (i * 8)) % 256)).length = k := by simp
    obtain ⟨r, hr⟩ : ∃ r, size - k = r + 1 := ⟨size - k - 1, by omega⟩
    have hr2 : size - (k + 1) = r := by omega
    rw [hr, hr2, List.replicate_succ]
    conv_lhs => rw [show k = ((List.range k).map (fun i => (value >>> (i * 8)) % 256)).length + 0 by simp]
    rw [List.set_append_right _ _ (by simp)]
    simp

theorem serializeLoop_eq (value size : Nat) :
    (List.range size).foldl (serializeStep value) (List.replicate size 0) =
      (List.range size).map (fun i => value / 2 ^ (8 * i) % 256) := by
  rw [serializeLoop_upto value size size (le_refl _)]
  simp [Nat.shiftRight_eq_div_pow, Nat.mul_comm]

theorem SerializeUint_eq (buf : Buffer) (value size : Nat) :
    SerializeUint buf value size =
      buf ++ (List.range size).map (fun i => value / 2 ^ (8 * i) % 256) := by
  simp only [SerializeUint, Buffer.Write, serializeLoop_eq]

/-! ## Lemmas on the decode loop -/

theorem leSum_succ (bd : List Nat) (k : Nat) :
    leSum bd (k + 1) = leSum bd k + bd.getD k 0 * 256 ^ k := by
  simp [leSum, Finset.sum_range_succ]

theorem getD_lt_of_isBytes {bd : List Nat} (h : Buffer.IsBytes bd) (i : Nat) :
    bd.getD i 0 < 256 := by
  by_cases hi : i < bd.length
  · rw [List.getD_eq_getElem _ _ hi]
    exact h _ (List.getElem_mem hi)
  · rw [List.getD_eq_default _ _ (by omega)]
    decide

theorem leSum_lt {bd : List Nat} (h : Buffer.IsBytes bd) (k : Nat) :
    leSum bd k < 256 ^ k := by
  induction k with
  | zero => simp [leSum]
  | succ k ih =>
    rw [leSum_succ, pow_succ]
    have hb := getD_lt_of_isBytes h k
    nlinarith

theorem deserializeStep_low {bd : List Nat} (h : Buffer.IsBytes bd) (k : Nat) (hk : k < 8) :
    deserializeStep bd (leSum bd k) k = leSum bd (k + 1) := by
  have hb := getD_lt_of_isBytes h k
  have hv := leSum_lt h k
  have e256 : (256 : Nat) ^ k = 2 ^ (k * 8) := by
    rw [show (256 : Nat) = 2 ^ 8 by norm_num, ← pow_mul, Nat.mul_comm]
  have hsmall : bd.getD k 0 <<< (k * 8) < 2 ^ 64 := by
    rw [Nat.shiftLeft_eq]
    calc bd.getD k 0 * 2 ^ (k * 8) < 256 * 2 ^ (k * 8) :=
          Nat.mul_lt_mul_of_pos_right hb (by positivity)
      _ = 2 ^ (8 + k * 8) := by rw [show (256 : Nat) = 2 ^ 8 by norm_num, ← pow_add]
      _ ≤ 2 ^ 64 := Nat.pow_le_pow_right (by norm_num) (by omega)
  unfold deserializeStep
  rw [Nat.mod_eq_of_lt hsmall, Nat.shiftLeft_eq, leSum_succ, e256, Nat.lor_comm,
    Nat.mul_comm (bd.getD k 0), Nat.add_comm]
  rw [e256] at hv
  exact (Nat.mul_add_lt_is_or hv _).symm

theorem deserializeStep_high (bd : List Nat) (v k : Nat) (hk : 8 ≤ k) :
    deserializeStep bd v k = v := by
  unfold deserializeStep
  have hdvd : (2 : Nat) ^ 64 ∣ bd.getD k 0 <<< (k * 8) := by
    rw [Nat.shiftLeft_eq]
    exact Dvd.dvd.mul_left (Nat.pow_dvd_pow 2 (by omega)) _
  rw [Nat.mod_eq_zero_of_dvd hdvd, Nat.or_zero]

theorem deserializeLoop_eq {bd : List Nat} (h : Buffer.IsBytes bd) (size : Nat) :
    (List.range size).foldl (deserializeStep bd) 0 = leSum bd (min size 8) := by
  induction size with
  | zero => simp [leSum]
  | succ k ih =>
    rw [List.range_succ, List.foldl_append, ih]
    simp only [List.foldl_cons, List.foldl_nil]
    by_cases hk : k < 8
    · rw [show min k 8 = k by omega, show min (k + 1) 8 = k + 1 by omega]
      exact deserializeStep_low h k hk
    · rw [show min k 8 = 8 by omega, show min (k + 1) 8 = 8 by omega]
      exact deserializeStep_high bd _ k (by omega)

theorem read_getD (buf : Buffer) (size i : Nat) (hi : i < size) :
    (Buffer.Read buf (List.replicate size 0)).1.getD i 0 = buf.getD i 0 := by
  simp only [Buffer.Read, List.length_replicate]
  by_cases h1 : i < min size buf.length
  · rw [List.getD_append _ _ _ _ (by simp; omega)]
    have h3 : i < buf.length := by omega
    simp [List.getD_eq_getElem?_getD, List.getElem?_take, h1, List.getElem?_eq_getElem h3]
  · rw [List.getD_append_right _ _ _ _ (by simp; omega)]
    have h2 : buf.length ≤ i := by omega
    rw [List.getD_eq_default buf 0 h2]
    simp only [List.getD_eq_getElem?_getD, List.getElem?_drop, List.getElem?_replicate]
    split <;> rfl

theorem read_isBytes {buf : Buffer} (h : Buffer.IsBytes buf) (size : Nat) :
    Buffer.IsBytes (Buffer.Read buf (List.replicate size 0)).1 := by
  intro b hb
  simp only [Buffer.Read, List.length_replicate, List.mem_append] at hb
  rcases hb with hb | hb
  · exact h b (List.mem_of_mem_take hb)
  · have := List.mem_of_mem_drop hb
    rw [List.mem_replicate] at this
    omega

theorem read_snd (buf : Buffer) (size : Nat) :
    (Buffer.Read buf (List.replicate size 0)).2 = buf.drop size := by
  simp only [Buffer.Read, List.length_replicate]
  by_cases h : size ≤ buf.length
  · rw [Nat.min_eq_left h]
  · rw [Nat.min_eq_right (by omega), List.drop_of_length_le (le_refl _),
      List.drop_of_length_le (by omega)]

theorem leSum_congr (a b : List Nat) (k : Nat) (h : ∀ i, i < k → a.getD i 0 = b.getD i 0) :
    leSum a k = leSum b k := by
  unfold leSum
  refine Finset.sum_congr rfl ?_
  intro i hi
  rw [h i (Finset.mem_range.mp hi)]

/-- Closed form of `DeserializeUint`, for every size and buffer length. -/
theorem DeserializeUint_eq (T : UintT) {buf : Buffer} (h : Buffer.IsBytes buf) (size : Nat) :
    DeserializeUint T buf size = (leSum buf (min size 8) % 2 ^ T.bits, buf.drop size) := by
  simp only [DeserializeUint]
  rw [deserializeLoop_eq (read_isBytes h size), read_snd,
    leSum_congr _ buf (min size 8) (fun i hi => read_getD buf size i (by omega))]

theorem leSum_lt_two_pow_64 {buf : Buffer} (h : Buffer.IsBytes buf) (k : Nat) (hk : k ≤ 8) :
    leSum buf k < 2 ^ 64 :=
  calc leSum buf k < 256 ^ k := leSum_lt h k
    _ ≤ 256 ^ 8 := Nat.pow_le_pow_right (by norm_num) hk
    _ = 2 ^ 64 := by norm_num

/-! ## Encoding followed by decoding -/

theorem encode_isBytes (value size : Nat) :
    Buffer.IsBytes ((List.range size).map (fun i => value / 2 ^ (8 * i) % 256)) := by
  intro b hb
  rw [List.mem_map] at hb
  obtain ⟨i, _, rfl⟩ := hb
  exact Nat.mod_lt _ (by norm_num)

theorem isBytes_append {a b : Buffer} (ha : Buffer.IsBytes a) (hb : Buffer.IsBytes b) :
    Buffer.IsBytes (a ++ b) := by
  intro x hx
  rcases List.mem_append.mp hx with h | h
  · exact ha x h
  · exact hb x h

theorem SerializeUint_isBytes {buf : Buffer} (h : Buffer.IsBytes buf) (value size : Nat) :
    Buffer.IsBytes (SerializeUint buf value size) := by
  rw [SerializeUint_eq]
  exact isBytes_append h (encode_isBytes value size)

theorem encode_getD (value size : Nat) (rest : Buffer) (i : Nat) (hi : i < size) :
    ((List.range size).map (fun i => value / 2 ^ (8 * i) % 256) ++ rest).getD i 0 =
      value / 2 ^ (8 * i) % 256 := by
  rw [List.getD_append _ _ _ _ (by simpa using hi)]
  rw [List.getD_eq_getElem _ _ (by simpa using hi)]
  simp

/-- Base-256 digit expansion: the first `k` encoded bytes carry `value mod 256^k`. -/
theorem leSum_encode (value size : Nat) (rest : Buffer) :
    ∀ k, k ≤ size →
      leSum ((List.range size).map (fun i => value / 2 ^ (8 * i) % 256) ++ rest) k =
        value % 256 ^ k := by
  intro k
  induction k with
  | zero => intro _; simp [leSum, Nat.mod_one]
  | succ k ih =>
    intro hk
    rw [leSum_succ, ih (by omega), encode_getD value size rest k (by omega), Nat.mod_pow_succ,
      show (2 : Nat) ^ (8 * k) = 256 ^ k by
        rw [show (256 : Nat) = 2 ^ 8 by norm_num, ← pow_mul],
      Nat.mul_comm]

/-- Decoding a field that was just encoded in front of `rest`. -/
theorem decode_encode_append (T : UintT) (value size : Nat) {rest : Buffer}
    (hrest : Buffer.IsBytes rest) :
    DeserializeUint T (SerializeUint [] value size ++ rest) size =
      (value % 256 ^ (min size 8) % 2 ^ T.bits, rest) := by
  rw [SerializeUint_eq, List.nil_append,
    DeserializeUint_eq T (isBytes_append (encode_isBytes value size) hrest),
    leSum_encode value size rest _ (Nat.min_le_left _ _)]
  congr 1
  rw [List.drop_append_eq_append_drop]
  simp

theorem mod_of_fits (value size : Nat) (h8 : size ≤ 8) (hv : value < 2 ^ (8 * size)) :
    value % 256 ^ (min size 8) % 2 ^ 64 = value := by
  have e : (256 : Nat) ^ size = 2 ^ (8 * size) := by
    rw [show (256 : Nat) = 2 ^ 8 by norm_num, ← pow_mul]
  rw [Nat.min_eq_left h8, e, Nat.mod_eq_of_lt hv, Nat.mod_eq_of_lt]
  exact lt_of_lt_of_le hv (Nat.pow_le_pow_right (by norm_num) (by omega))

theorem writeFields_append (buf : Buffer) (fields : List (Nat × Nat)) :
    writeFields buf fields = buf ++ writeFields [] fields := by
  induction fields generalizing buf with
  | nil => simp [writeFields]
  | cons f fs ih =>
    simp only [writeFields]
    rw [ih (SerializeUint buf f.1 f.2), ih (SerializeUint [] f.1 f.2), SerializeUint_eq,
      SerializeUint_eq, List.nil_append, List.append_assoc]

theorem writeFields_isBytes {buf : Buffer} (h : Buffer.IsBytes buf) (fields : List (Nat × Nat)) :
    Buffer.IsBytes (writeFields buf fields) := by
  induction fields generalizing buf with
  | nil => simpa [writeFields] using h
  | cons f fs ih => exact ih (SerializeUint_isBytes h f.1 f.2)

/-- Fields written one after another are read back one after another. -/
theorem readFields_writeFields (fields : List (Nat × Nat))
    (hf : ∀ f ∈ fields, f.2 ≤ 8 ∧ f.1 < 2 ^ (8 * f.2)) :
    readFields (writeFields [] fields) (fields.map Prod.snd) = (fields.map Prod.fst, []) := by
  induction fields with
  | nil => simp [writeFields, readFields]
  | cons f fs ih =>
    obtain ⟨h8, hv⟩ := hf f (List.mem_cons_self _ _)
    have hrest : Buffer.IsBytes (writeFields [] fs) :=
      writeFields_isBytes (by intro b hb; simp at hb) fs
    simp only [writeFields, List.map_cons, readFields]
    rw [writeFields_append, decode_encode_append .uint64 f.1 f.2 hrest,
      ih (fun g hg => hf g (List.mem_cons_of_mem _ hg))]
    simp only [UintT.bits]
    rw [mod_of_fits f.1 f.2 h8 hv]

/-! ## Claims on the integer codec -/

/-- C5: `SerializeUint(buf, value, size)` leaves the old content `c` of the
buffer in place and appends exactly `size` bytes, the `i`-th of which is
`(value / 2^(8*i)) mod 256` (least-significant byte first). -/
theorem SerializeUint_littleEndian (c : Buffer) (value size : Nat) :
    SerializeUint c value size =
        c ++ (List.range size).map (fun i => value / 2 ^ (8 * i) % 256) ∧
      (SerializeUint c value size).length = c.length + size ∧
      (SerializeUint c value size).take c.length = c ∧
      ∀ i : Fin size,
        (SerializeUint c value size).getD (c.length + i.val) 0 = value / 2 ^ (8 * i.val) % 256 := by
  have h := SerializeUint_eq c value size
  refine ⟨h, ?_, ?_, ?_⟩
  · rw [h]; simp
  · rw [h]; simp
  · intro i
    rw [h, List.getD_append_right _ _ _ _ (by omega), Nat.add_sub_cancel_left]
    have := encode_getD value size [] i.val i.isLt
    rw [List.append_nil] at this
    exact this

/-- C6: for `size ≤ 8` and a buffer of bytes holding at least `size` of them,
`DeserializeUint[uint64](buf, size)` returns the sum of `b_i * 256^i` over
`i < size` and leaves the buffer without its first `size` bytes. -/
theorem DeserializeUint_littleEndian (buf : Buffer) (size : Nat) (hb : Buffer.IsBytes buf)
    (hs : size ≤ 8) (hl : size ≤ buf.length) :
    DeserializeUint .uint64 buf size =
      (∑ i in Finset.range size, buf.getD i 0 * 256 ^ i, buf.drop size) ∧
    buf = buf.take size ++ (DeserializeUint .uint64 buf size).2 ∧
    (buf.take size).length = size := by
  have h := DeserializeUint_eq .uint64 hb size
  rw [Nat.min_eq_left hs] at h
  rw [h]
  refine ⟨?_, (List.take_append_drop size buf).symm, ?_⟩
  · congr 1
    exact Nat.mod_eq_of_lt (leSum_lt_two_pow_64 hb size hs)
  · rw [List.length_take]
    exact Nat.min_eq_left hl

/-- Instance of C6: three bytes read from a buffer of four. -/
theorem DeserializeUint_littleEndian_witness :
    (Buffer.IsBytes [2, 1, 0, 9] ∧ 3 ≤ 8 ∧ 3 ≤ [2, 1, 0, 9].length) ∧
      (DeserializeUint .uint64 [2, 1, 0, 9] 3 =
          (∑ i in Finset.range 3, [2, 1, 0, 9].getD i 0 * 256 ^ i, [2, 1, 0, 9].drop 3) ∧
        [2, 1, 0, 9] = [2, 1, 0, 9].take 3 ++ (DeserializeUint .uint64 [2, 1, 0, 9] 3).2 ∧
        ([2, 1, 0, 9].take 3).length = 3) :=
  ⟨by decide, DeserializeUint_littleEndian [2, 1, 0, 9] 3 (by decide) (by decide) (by decide)⟩

/-- C3: for `1 ≤ size ≤ 8` and `value < 2^(8*size)`, encoding `value` with
`SerializeUint` into an empty buffer and decoding with
`DeserializeUint[uint64]` returns exactly `value` (and empties the buffer). -/
theorem serialize_deserialize_roundtrip (value size : Nat) (_h1 : 1 ≤ size) (h8 : size ≤ 8)
    (hv : value < 2 ^ (8 * size)) :
    DeserializeUint .uint64 (SerializeUint [] value size) size = (value, []) := by
  have h := @decode_encode_append .uint64 value size [] (by intro b hb; simp at hb)
  rw [List.append_nil] at h
  rw [h]
  congr 1
  exact mod_of_fits value size h8 hv

/-- Instance of C3: the value `258` in a field of three bytes. -/
theorem serialize_deserialize_roundtrip_witness :
    (1 ≤ 3 ∧ 3 ≤ 8 ∧ 258 < 2 ^ (8 * 3)) ∧
      DeserializeUint .uint64 (SerializeUint [] 258 3) 3 = (258, []) :=
  ⟨by decide, serialize_deserialize_roundtrip 258 3 (by decide) (by decide) (by decide)⟩

/-- C7: fields `(value_j, size_j)` with `1 ≤ size_j ≤ 8` and
`value_j < 2^(8*size_j)`, written in order with `SerializeUint` into an empty
buffer, are read back in order by `DeserializeUint[uint64]` with the same
sizes, and the buffer is empty afterwards. -/
theorem fields_roundtrip (fields : List (Nat × Nat))
    (hf : ∀ f ∈ fields, 1 ≤ f.2 ∧ f.2 ≤ 8 ∧ f.1 < 2 ^ (8 * f.2)) :
    readFields (writeFields [] fields) (fields.map Prod.snd) = (fields.map Prod.fst, []) :=
  readFields_writeFields fields (fun f hfm => (hf f hfm).2)

/-- Instance of C7: a two-byte, a one-byte and an eight-byte field. -/
theorem fields_roundtrip_witness :
    (∀ f ∈ [(258, 2), (7, 1), (2 ^ 40, 8)], 1 ≤ f.2 ∧ f.2 ≤ 8 ∧ f.1 < 2 ^ (8 * f.2)) ∧
      readFields (writeFields [] [(258, 2), (7, 1), (2 ^ 40, 8)])
          ([(258, 2), (7, 1), (2 ^ 40, 8)].map Prod.snd) =
        ([(258, 2), (7, 1), (2 ^ 40, 8)].map Prod.fst, []) :=
  ⟨by decide, fields_roundtrip [(258, 2), (7, 1), (2 ^ 40, 8)] (by decide)⟩

/-! ## Lemmas on `NextPowerOfTwo` -/

/-- One smearing step `a |= a >> w`: if bit `i` of `a` records whether `m` has
a bit set in the window `[i, i + w)`, then afterwards it records the window
`[i, i + 2w)`. -/
theorem smear_step (m a w : Nat)
    (h : ∀ i, a.testBit i = true ↔ ∃ j, j < w ∧ m.testBit (i + j) = true) :
    ∀ i, (a ||| (a >>> w)).testBit i = true ↔ ∃ j, j < 2 * w ∧ m.testBit (i + j) = true := by
  intro i
  rw [Nat.testBit_or, Nat.testBit_shiftRight, Bool.or_eq_true, h, h]
  constructor
  · rintro (⟨j, hj, hb⟩ | ⟨j, hj, hb⟩)
    · exact ⟨j, by omega, hb⟩
    · exact ⟨w + j, by omega, by rw [← hb]; congr 1; omega⟩
  · rintro ⟨j, hj, hb⟩
    by_cases hjw : j < w
    · exact Or.inl ⟨j, hjw, hb⟩
    · exact Or.inr ⟨j - w, by omega, by rw [← hb]; congr 1; omega⟩

theorem smear_testBit (m i : Nat) :
    (smear m).testBit i = true ↔ ∃ j, j < 32 ∧ m.testBit (i + j) = true := by
  have h0 : ∀ i, m.testBit i = true ↔ ∃ j, j < 1 ∧ m.testBit (i + j) = true := by
    intro i
    constructor
    · intro h; exact ⟨0, by omega, h⟩
    · rintro ⟨j, hj, hb⟩
      have : j = 0 := by omega
      subst this
      exact hb
  have h1 := smear_step m _ 1 h0
  have h2 := smear_step m _ 2 h1
  have h4 := smear_step m _ 4 h2
  have h8 := smear_step m _ 8 h4
  have h16 := smear_step m _ 16 h8
  exact h16 i

/-- On a 32-bit word, smearing fills every bit below the highest set bit. -/
theorem smear_eq (m : Nat) (hm : m < 2 ^ 32) : smear m = 2 ^ (Nat.size m) - 1 := by
  apply Nat.eq_of_testBit_eq
  intro i
  rw [Nat.testBit_two_pow_sub_one, Bool.eq_iff_iff, smear_testBit, decide_eq_true_iff,
    Nat.lt_size]
  constructor
  · rintro ⟨j, _, hb⟩
    exact le_trans (Nat.pow_le_pow_right (by norm_num) (by omega)) (Nat.testBit_implies_ge hb)
  · intro hge
    obtain ⟨k, hk, hb⟩ := Nat.ge_two_pow_implies_high_bit_true hge
    have hk32 : k < 32 := by
      by_contra hcon
      have hlt : m < 2 ^ k := lt_of_lt_of_le hm (Nat.pow_le_pow_right (by norm_num) (by omega))
      rw [Nat.testBit_lt_two_pow hlt] at hb
      exact Bool.false_ne_true hb
    exact ⟨k - i, by omega, by rw [← hb]; congr 1; omega⟩

/-- Closed form of `NextPowerOfTwo` on every `uint32`. -/
theorem NextPowerOfTwo_eq (n : Nat) :
    NextPowerOfTwo n = 2 ^ Nat.size ((n + (2 ^ 32 - 1)) % 2 ^ 32) % 2 ^ 32 := by
  have hm : (n + (2 ^ 32 - 1)) % 2 ^ 32 < 2 ^ 32 := Nat.mod_lt _ (by norm_num)
  have hdef : NextPowerOfTwo n = (smear ((n + (2 ^ 32 - 1)) % 2 ^ 32) + 1) % 2 ^ 32 := rfl
  rw [hdef, smear_eq _ hm, Nat.sub_add_cancel (Nat.one_le_two_pow)]

/-- Closed form of `NextPowerOfTwo` on `1 ≤ n ≤ 2^31`. -/
theorem NextPowerOfTwo_eq_of_le (n : Nat) (h1 : 1 ≤ n) (h31 : n ≤ 2 ^ 31) :
    NextPowerOfTwo n = 2 ^ Nat.size (n - 1) ∧ Nat.size (n - 1) ≤ 31 := by
  have hdec : (n + (2 ^ 32 - 1)) % 2 ^ 32 = n - 1 := by omega
  have hs : Nat.size (n - 1) ≤ 31 := Nat.size_le.mpr (by omega)
  refine ⟨?_, hs⟩
  rw [NextPowerOfTwo_eq, hdec]
  exact Nat.mod_eq_of_lt (Nat.pow_lt_pow_right (by norm_num) (by omega))

/-! ## Claims on `NextPowerOfTwo` -/

/-- C8: for `1 ≤ n ≤ 2^31`, `NextPowerOfTwo(n)` equals `2^k` for some `k` in
`0..31` and is at least `n`. -/
theorem NextPowerOfTwo_isPow2_ge (n : Nat) (h1 : 1 ≤ n) (h31 : n ≤ 2 ^ 31) :
    (∃ k, k ≤ 31 ∧ NextPowerOfTwo n = 2 ^ k) ∧ n ≤ NextPowerOfTwo n := by
  obtain ⟨he, hs⟩ := NextPowerOfTwo_eq_of_le n h1 h31
  refine ⟨⟨_, hs, he⟩, ?_⟩
  rw [he]
  have := Nat.lt_size_self (n - 1)
  omega

/-- Instance of C8: `n = 1000`. -/
theorem NextPowerOfTwo_isPow2_ge_witness :
    (1 ≤ 1000 ∧ 1000 ≤ 2 ^ 31) ∧
      ((∃ k, k ≤ 31 ∧ NextPowerOfTwo 1000 = 2 ^ k) ∧ 1000 ≤ NextPowerOfTwo 1000) :=
  ⟨by decide, NextPowerOfTwo_isPow2_ge 1000 (by decide) (by decide)⟩

/-- C9: for `1 ≤ n ≤ 2^31`, `NextPowerOfTwo(n) < 2 * n` (over the naturals, so
without overflow), and `NextPowerOfTwo(n)` is the least power of two that is
at least `n`. -/
theorem NextPowerOfTwo_lt_double (n : Nat) (h1 : 1 ≤ n) (h31 : n ≤ 2 ^ 31) :
    NextPowerOfTwo n < 2 * n ∧
      (∃ k, NextPowerOfTwo n = 2 ^ k) ∧ n ≤ NextPowerOfTwo n ∧
      ∀ j, n ≤ 2 ^ j → NextPowerOfTwo n ≤ 2 ^ j := by
  obtain ⟨he, _⟩ := NextPowerOfTwo_eq_of_le n h1 h31
  have hgt := Nat.lt_size_self (n - 1)
  have hmin : ∀ j, n ≤ 2 ^ j → 2 ^ Nat.size (n - 1) ≤ 2 ^ j := by
    intro j hj
    exact Nat.pow_le_pow_right (by norm_num) (Nat.size_le.mpr (by omega))
  rw [he]
  refine ⟨?_, ⟨_, rfl⟩, by omega, hmin⟩
  rcases Nat.eq_zero_or_pos (Nat.size (n - 1)) with h0 | hpos
  · rw [h0]; omega
  · obtain ⟨s, hs⟩ : ∃ s, Nat.size (n - 1) = s + 1 := ⟨Nat.size (n - 1) - 1, by omega⟩
    have hle : 2 ^ s ≤ n - 1 := Nat.lt_size.mp (by omega)
    rw [hs, pow_succ]
    omega

/-- Instance of C9: `n = 2^31`, the largest input of the range. -/
theorem NextPowerOfTwo_lt_double_witness :
    (1 ≤ 2 ^ 31 ∧ 2 ^ 31 ≤ 2 ^ 31) ∧
      (NextPowerOfTwo (2 ^ 31) < 2 * 2 ^ 31 ∧
        (∃ k, NextPowerOfTwo (2 ^ 31) = 2 ^ k) ∧ 2 ^ 31 ≤ NextPowerOfTwo (2 ^ 31) ∧
        ∀ j, 2 ^ 31 ≤ 2 ^ j → NextPowerOfTwo (2 ^ 31) ≤ 2 ^ j) :=
  ⟨by decide, NextPowerOfTwo_lt_double (2 ^ 31) (by decide) (by decide)⟩

/-! ## Lemmas on the bit vector -/

theorem NextPowerOfTwo_zero_or_pow (n : Nat) :
    NextPowerOfTwo n = 0 ∨ ∃ k, k ≤ 31 ∧ NextPowerOfTwo n = 2 ^ k := by
  have hm : (n + (2 ^ 32 - 1)) % 2 ^ 32 < 2 ^ 32 := Nat.mod_lt _ (by norm_num)
  have hs : Nat.size ((n + (2 ^ 32 - 1)) % 2 ^ 32) ≤ 32 := Nat.size_le.mpr hm
  rw [NextPowerOfTwo_eq]
  rcases Nat.lt_or_ge (Nat.size ((n + (2 ^ 32 - 1)) % 2 ^ 32)) 32 with h | h
  · right
    exact ⟨_, by omega, Nat.mod_eq_of_lt (Nat.pow_lt_pow_right (by norm_num) h)⟩
  · left
    rw [show Nat.size ((n + (2 ^ 32 - 1)) % 2 ^ 32) = 32 by omega]
    norm_num

theorem shift_and_one_eq_testBit (w r : Nat) : ((w >>> r) &&& 1 != 0) = w.testBit r := by
  rw [Nat.and_comm]
  rfl

theorem TestBit_eq (f : BloomFilter) (i : Nat) (hi : i < f.M) (hl : i / 64 < f.Bits.length) :
    TestBit f i = some (bitAt f.Bits i) := by
  simp only [TestBit, hi, hl, and_self, if_true, bitAt, shift_and_one_eq_testBit]

theorem bitAt_set_self (bits : List Nat) (i : Nat) (hl : i / 64 < bits.length) :
    bitAt (bits.set (i / 64) (bits.getD (i / 64) 0 ||| (1 <<< (i % 64)))) i = true := by
  unfold bitAt
  rw [List.getD_eq_getElem _ _ (by simpa using hl), List.getElem_set_self, Nat.testBit_or,
    Nat.one_shiftLeft, Nat.testBit_two_pow_self, Bool.or_true]

theorem bitAt_set_mono (bits : List Nat) (i j : Nat) (hl : i / 64 < bits.length)
    (hj : bitAt bits j = true) :
    bitAt (bits.set (i / 64) (bits.getD (i / 64) 0 ||| (1 <<< (i % 64)))) j = true := by
  unfold bitAt at hj ⊢
  by_cases hij : i / 64 = j / 64
  · rw [← hij] at hj ⊢
    rw [List.getD_eq_getElem _ _ (by simpa using hl), List.getElem_set_self, Nat.testBit_or, hj,
      Bool.true_or]
  · rw [List.getD_eq_getElem?_getD, List.getElem?_set_ne hij, ← List.getD_eq_getElem?_getD]
    exact hj

theorem valid_index {f : BloomFilter} (hv : f.Valid) {i : Nat} (hi : i < f.M) :
    i / 64 < f.Bits.length := by
  rw [hv.2.1]
  unfold wordCount
  omega

theorem SetBit_spec {f : BloomFilter} (hv : f.Valid) {i : Nat} (hi : i < f.M) :
    ∃ g, SetBit f i = some g ∧ g.M = f.M ∧ g.K = f.K ∧ g.Seed = f.Seed ∧ g.Valid ∧
      bitAt g.Bits i = true ∧ ∀ j, bitAt f.Bits j = true → bitAt g.Bits j = true := by
  have hl := valid_index hv hi
  refine ⟨{ f with
      Bits := f.Bits.set (i / 64) (f.Bits.getD (i / 64) 0 ||| (1 <<< (i % 64))) },
    by simp only [SetBit, hi, hl, and_self, if_true], rfl, rfl, rfl, ?_,
    bitAt_set_self f.Bits i hl, fun j hj => bitAt_set_mono f.Bits i j hl hj⟩
  refine ⟨hv.1, by simpa using hv.2.1, ?_⟩
  intro w hw
  rcases List.mem_or_eq_of_mem_set hw with h | h
  · exact hv.2.2 w h
  · rw [h]
    refine Nat.or_lt_two_pow ?_ ?_
    · by_cases hb : i / 64 < f.Bits.length
      · rw [List.getD_eq_getElem _ _ hb]
        exact hv.2.2 _ (List.getElem_mem hb)
      · rw [List.getD_eq_default _ _ (by omega)]
        norm_num
    · rw [Nat.one_shiftLeft]
      exact Nat.pow_lt_pow_right (by norm_num) (Nat.mod_lt _ (by norm_num))

theorem setBits_spec (l : List Nat) :
    ∀ {f : BloomFilter}, f.Valid → (∀ i ∈ l, i < f.M) →
      ∃ g, setBits f l = some g ∧ g.M = f.M ∧ g.K = f.K ∧ g.Seed = f.Seed ∧ g.Valid ∧
        (∀ i ∈ l, bitAt g.Bits i = true) ∧
        ∀ j, bitAt f.Bits j = true → bitAt g.Bits j = true := by
  induction l with
  | nil =>
    intro f hv _
    exact ⟨f, rfl, rfl, rfl, rfl, hv, by simp, fun _ h => h⟩
  | cons a l ih =>
    intro f hv hl
    obtain ⟨g, hg, hM, hK, hS, hgv, hset, hmono⟩ := SetBit_spec hv (hl a (List.mem_cons_self _ _))
    obtain ⟨g2, hg2, hM2, hK2, hS2, hgv2, hset2, hmono2⟩ :=
      ih hgv (fun i hi => by rw [hM]; exact hl i (List.mem_cons_of_mem _ hi))
    refine ⟨g2, by simp only [setBits, hg, hg2], hM2.trans hM, hK2.trans hK, hS2.trans hS, hgv2,
      ?_, fun j hj => hmono2 j (hmono j hj)⟩
    intro i hi
    rcases List.mem_cons.mp hi with h | h
    · rw [h]; exact hmono2 a hset
    · exact hset2 i h

theorem testBits_eq (f : BloomFilter) (hv : f.Valid) (l : List Nat) (hl : ∀ i ∈ l, i < f.M) :
    testBits f l = some (l.all (bitAt f.Bits)) := by
  induction l with
  | nil => rfl
  | cons a l ih =>
    have ha := hl a (List.mem_cons_self _ _)
    have hrec := ih (fun i hi => hl i (List.mem_cons_of_mem _ hi))
    simp only [testBits, TestBit_eq f a ha (valid_index hv ha), List.all_cons]
    cases hb : bitAt f.Bits a
    · simp
    · simpa using hrec

theorem Hash_lt (H : BaseHash) {f : BloomFilter} (hM : 0 < f.M) (data : List Nat) :
    ∀ i ∈ Hash H f data, i < f.M := by
  intro i hi
  simp only [Hash, List.mem_map] at hi
  obtain ⟨_, _, rfl⟩ := hi
  exact Nat.mod_lt _ hM

theorem Hash_congr (H : BaseHash) {f g : BloomFilter} (hM : g.M = f.M) (hK : g.K = f.K)
    (hS : g.Seed = f.Seed) (data : List Nat) : Hash H g data = Hash H f data := by
  simp only [Hash, hM, hK, hS]

/-- On a valid filter `Exist` answers, and it is true iff every derived bit is set. -/
theorem Exist_eq (H : BaseHash) {f : BloomFilter} (hv : f.Valid) (data : List Nat) :
    Exist H f data = some ((Hash H f data).all (bitAt f.Bits)) :=
  testBits_eq f hv _ (Hash_lt H hv.1 data)

theorem Insert_spec (H : BaseHash) {f : BloomFilter} (hv : f.Valid) (data : List Nat) :
    ∃ g, Insert H f data = some g ∧ g.M = f.M ∧ g.K = f.K ∧ g.Seed = f.Seed ∧ g.Valid ∧
      (∀ i ∈ Hash H f data, bitAt g.Bits i = true) ∧
      ∀ j, bitAt f.Bits j = true → bitAt g.Bits j = true :=
  setBits_spec _ hv (Hash_lt H hv.1 data)

theorem insertAll_spec (H : BaseHash) (xs : List (List Nat)) :
    ∀ {f : BloomFilter}, f.Valid →
      ∃ g, insertAll H f xs = some g ∧ g.M = f.M ∧ g.K = f.K ∧ g.Seed = f.Seed ∧ g.Valid ∧
        ∀ j, bitAt f.Bits j = true → bitAt g.Bits j = true := by
  induction xs with
  | nil =>
    intro f hv
    exact ⟨f, rfl, rfl, rfl, rfl, hv, fun _ h => h⟩
  | cons x xs ih =>
    intro f hv
    obtain ⟨g, hg, hM, hK, hS, hgv, _, hmono⟩ := Insert_spec H hv x
    obtain ⟨g2, hg2, hM2, hK2, hS2, hgv2, hmono2⟩ := ih hgv
    exact ⟨g2, by simp only [insertAll, hg, hg2], hM2.trans hM, hK2.trans hK, hS2.trans hS, hgv2,
      fun j hj => hmono2 j (hmono j hj)⟩

theorem insertAll_append (H : BaseHash) (xs ys : List (List Nat)) (f : BloomFilter) :
    insertAll H f (xs ++ ys) = (insertAll H f xs).bind (fun g => insertAll H g ys) := by
  induction xs generalizing f with
  | nil => rfl
  | cons x xs ih =>
    simp only [List.cons_append, insertAll]
    cases Insert H f x with
    | none => rfl
    | some g => exact ih g

/-- What `NewBloomFilter` builds when it succeeds. -/
theorem NewBloomFilter_spec {S : SizingMath} {n : Nat} {p : ℚ} {seed : Nat} {f : BloomFilter}
    (h : NewBloomFilter S n p seed = .ok f) :
    f.Valid ∧ (∃ k, k ≤ 31 ∧ f.M = 2 ^ k) ∧ 1 ≤ f.K ∧ f.Seed = seed ∧
      f.Bits = List.replicate (wordCount f.M) 0 := by
  unfold NewBloomFilter at h
  split at h
  · simp only [Except.ok.injEq] at h
    subst h
    have hpow : ∃ k, k ≤ 31 ∧
        (if NextPowerOfTwo (S.mRaw (if n = 0 then 1 else n) p % 2 ^ 32) = 0 then 64
          else NextPowerOfTwo (S.mRaw (if n = 0 then 1 else n) p % 2 ^ 32)) = 2 ^ k := by
      rcases NextPowerOfTwo_zero_or_pow (S.mRaw (if n = 0 then 1 else n) p % 2 ^ 32) with h0 | ⟨k, hk, hk2⟩
      · exact ⟨6, by norm_num, by rw [if_pos h0]; norm_num⟩
      · refine ⟨k, hk, ?_⟩
        rw [if_neg (by rw [hk2]; positivity), hk2]
    refine ⟨⟨?_, by simp, ?_⟩, hpow, le_max_left _ _, rfl, rfl⟩
    · obtain ⟨k, _, hk⟩ := hpow
      rw [hk]; positivity
    · intro w hw
      rw [List.mem_replicate] at hw
      rw [hw.2]; norm_num
  · cases h

/-- The sample construction: five items at probability one half, seed `7`. -/
theorem sample_new :
    NewBloomFilter sampleSizing 5 (1 / 2) 7 = .ok ⟨64, 12, 7, [0]⟩ := by
  have hp : (0 : ℚ) < 1 / 2 ∧ (1 / 2 : ℚ) < 1 := by norm_num
  simp only [NewBloomFilter, hp, and_self, if_true]
  rfl

/-! ## Claims on the filter engine -/

/-- C10: for every item count `n` and every probability `p` in `(0,1)`,
`NewBloomFilter(n, p)` yields a filter with `M > 0`, `M` a power of two,
`K ≥ 1` and a non-empty `Bits` array. -/
theorem NewBloomFilter_sizing_sanity (S : SizingMath) (n : Nat) (p : ℚ) (seed : Nat)
    (hp0 : 0 < p) (hp1 : p < 1) :
    ∃ f, NewBloomFilter S n p seed = .ok f ∧ 0 < f.M ∧ (∃ k, f.M = 2 ^ k) ∧ 1 ≤ f.K ∧
      0 < f.Bits.length := by
  have hex : ∃ f, NewBloomFilter S n p seed = .ok f := by
    unfold NewBloomFilter
    rw [if_pos ⟨hp0, hp1⟩]
    exact ⟨_, rfl⟩
  obtain ⟨f, hf⟩ := hex
  obtain ⟨hv, ⟨k, _, hk⟩, hK, _, _⟩ := NewBloomFilter_spec hf
  refine ⟨f, hf, hv.1, ⟨k, hk⟩, hK, ?_⟩
  rw [hv.2.1]
  have := hv.1
  unfold wordCount
  omega

/-- Instance of C10: five items at probability one half. -/
theorem NewBloomFilter_sizing_sanity_witness :
    ((0 : ℚ) < 1 / 2 ∧ (1 / 2 : ℚ) < 1) ∧
      ∃ f, NewBloomFilter sampleSizing 5 (1 / 2) 7 = .ok f ∧ 0 < f.M ∧ (∃ k, f.M = 2 ^ k) ∧
        1 ≤ f.K ∧ 0 < f.Bits.length :=
  ⟨by norm_num, NewBloomFilter_sizing_sanity sampleSizing 5 (1 / 2) 7 (by norm_num) (by norm_num)⟩

/-- C1: a filter built by `NewBloomFilter` accepts every history of `Insert`
calls, and once `x` has been inserted `Exist(x)` is true, whatever was
inserted before and whatever is inserted afterwards. -/
theorem no_false_negatives (S : SizingMath) (H : BaseHash) (n : Nat) (p : ℚ) (seed : Nat)
    (f : BloomFilter) (hnew : NewBloomFilter S n p seed = .ok f)
    (before : List (List Nat)) (x : List Nat) (later : List (List Nat)) :
    ∃ g, insertAll H f (before ++ x :: later) = some g ∧ Exist H g x = some true := by
  obtain ⟨hv, _⟩ := NewBloomFilter_spec hnew
  obtain ⟨g1, hg1, _, _, _, hv1, _⟩ := insertAll_spec H before hv
  obtain ⟨g2, hg2, hM2, hK2, hS2, hv2, hset2, _⟩ := Insert_spec H hv1 x
  obtain ⟨g3, hg3, hM3, hK3, hS3, hv3, hmono3⟩ := insertAll_spec H later hv2
  refine ⟨g3, ?_, ?_⟩
  · rw [insertAll_append, hg1]
    simp only [Option.bind, insertAll, hg2, hg3]
  · rw [Exist_eq H hv3, Hash_congr H (hM3.trans hM2) (hK3.trans hK2) (hS3.trans hS2)]
    congr 1
    rw [List.all_eq_true]
    intro i hi
    exact hmono3 i (hset2 i hi)

/-- Instance of C1: the key `[1, 2]` inserted between two other keys. -/
theorem no_false_negatives_witness :
    NewBloomFilter sampleSizing 5 (1 / 2) 7 = .ok ⟨64, 12, 7, [0]⟩ ∧
      ∃ g, insertAll sampleHash ⟨64, 12, 7, [0]⟩ ([[1]] ++ [1, 2] :: [[3]]) = some g ∧
        Exist sampleHash g [1, 2] = some true :=
  ⟨sample_new,
    no_false_negatives sampleSizing sampleHash 5 (1 / 2) 7 ⟨64, 12, 7, [0]⟩ sample_new
      [[1]] [1, 2] [[3]]⟩

/-! ## The persisted layout -/

theorem SerializeUint_append (buf : Buffer) (value size : Nat) :
    SerializeUint buf value size = buf ++ SerializeUint [] value size := by
  rw [SerializeUint_eq, SerializeUint_eq, List.nil_append]

theorem SerializeUint_nil_length (value size : Nat) :
    (SerializeUint [] value size).length = size := by
  rw [SerializeUint_eq]; simp

theorem DeserializeUint_snd (T : UintT) (buf : Buffer) (size : Nat) :
    (DeserializeUint T buf size).2 = buf.drop size :=
  read_snd buf size

/-- A header field of type `T` written in front of `rest` is read back. -/
theorem field_roundtrip (T : UintT) (v : Nat) (hv : v < 2 ^ T.bits) {rest : Buffer}
    (hrest : Buffer.IsBytes rest) :
    DeserializeUint T (SerializeUint [] v T.bytes ++ rest) T.bytes = (v, rest) := by
  rw [decode_encode_append T v T.bytes hrest]
  congr 1
  cases T
  · have e : (256 : Nat) ^ (64 / 8 ⊓ 8) = 2 ^ 64 := by norm_num
    simp only [UintT.bytes, UintT.bits] at hv ⊢
    rw [e, Nat.mod_eq_of_lt hv, Nat.mod_eq_of_lt hv]
  · have e : (256 : Nat) ^ (32 / 8 ⊓ 8) = 2 ^ 32 := by norm_num
    simp only [UintT.bytes, UintT.bits] at hv ⊢
    rw [e, Nat.mod_eq_of_lt hv, Nat.mod_eq_of_lt hv]

theorem words_length (ws : List Nat) :
    (writeFields [] (ws.map (fun w => (w, 8)))).length = 8 * ws.length := by
  induction ws with
  | nil => rfl
  | cons w ws ih =>
    simp only [List.map_cons, writeFields]
    rw [writeFields_append, List.length_append, ih, SerializeUint_nil_length, List.length_cons]
    omega

theorem words_roundtrip (ws : List Nat) (hws : ∀ w ∈ ws, w < 2 ^ 64) :
    readFields (writeFields [] (ws.map (fun w => (w, 8)))) (List.replicate ws.length 8) =
      (ws, []) := by
  have h := readFields_writeFields (ws.map (fun w => (w, 8))) (by
    intro f hf
    rw [List.mem_map] at hf
    obtain ⟨w, hw, rfl⟩ := hf
    exact ⟨le_refl _, hws w hw⟩)
  have h1 : (ws.map (fun w => (w, 8))).map Prod.snd = List.replicate ws.length 8 := by
    rw [List.map_map]
    exact List.eq_replicate_iff.mpr ⟨by simp, by simp⟩
  have h2 : (ws.map (fun w => (w, 8))).map Prod.fst = ws := by
    rw [List.map_map]
    exact List.map_id ws
  rw [h1, h2] at h
  exact h

theorem Serialize_eq (L : Layout) (f : BloomFilter) :
    Serialize L f =
      SerializeUint [] f.M L.mT.bytes ++ (SerializeUint [] f.K L.kT.bytes ++
        (SerializeUint [] f.Seed L.seedT.bytes ++
          writeFields [] (f.Bits.map (fun w => (w, 8))))) := by
  simp only [Serialize]
  rw [writeFields_append, SerializeUint_append _ f.Seed, SerializeUint_append _ f.K,
    List.append_assoc, List.append_assoc]

/-- `Deserialize` inverts `Serialize` on every valid filter whose header fields
fit the layout. -/
theorem Deserialize_Serialize (L : Layout) {f : BloomFilter} (hv : f.Valid)
    (hfit : BloomFilter.Fits L f) : Deserialize L (Serialize L f) = .ok f := by
  have hW : Buffer.IsBytes (writeFields [] (f.Bits.map (fun w => (w, 8)))) :=
    writeFields_isBytes (by intro b hb; simp at hb) _
  have hC := isBytes_append
    (@SerializeUint_isBytes [] (by intro b hb; simp at hb) f.Seed L.seedT.bytes) hW
  have hB := isBytes_append
    (@SerializeUint_isBytes [] (by intro b hb; simp at hb) f.K L.kT.bytes) hC
  have eM := field_roundtrip L.mT f.M hfit.1 hB
  have eK := field_roundtrip L.kT f.K hfit.2.1 hC
  have eS := field_roundtrip L.seedT f.Seed hfit.2.2 hW
  have hlen : ¬ (Serialize L f).length < L.headerSize := by
    rw [Serialize_eq]
    simp only [List.length_append, SerializeUint_nil_length, Layout.headerSize]
    omega
  have hwl : ¬ (writeFields [] (f.Bits.map (fun w => (w, 8)))).length < 8 * wordCount f.M := by
    rw [words_length, hv.2.1]
    omega
  unfold Deserialize
  rw [if_neg hlen, Serialize_eq]
  simp only [eM, eK, eS]
  rw [if_neg hwl, ← hv.2.1, words_roundtrip f.Bits hv.2.2]

/-! ## Claims on the codec of the filter -/

/-- C2: for a filter built by `NewBloomFilter` (with header fields that fit the
layout) and any history of insertions, `Deserialize(Serialize(f))` succeeds
with a filter that has the same `M`, `K`, `Seed` and `Bits`, and on which
`Exist` answers as on `f` for every byte sequence. -/
theorem filter_serialize_roundtrip (S : SizingMath) (H : BaseHash) (L : Layout) (n : Nat) (p : ℚ)
    (seed : Nat) (f0 : BloomFilter) (hnew : NewBloomFilter S n p seed = .ok f0)
    (hfit : BloomFilter.Fits L f0) (history : List (List Nat)) (f : BloomFilter)
    (hins : insertAll H f0 history = some f) :
    ∃ f2, Deserialize L (Serialize L f) = .ok f2 ∧ f2.M = f.M ∧ f2.K = f.K ∧
      f2.Seed = f.Seed ∧ f2.Bits = f.Bits ∧ ∀ x, Exist H f2 x = Exist H f x := by
  obtain ⟨hv0, _⟩ := NewBloomFilter_spec hnew
  obtain ⟨g, hg, hM, hK, hS, hv, _⟩ := insertAll_spec H history hv0
  rw [hins] at hg
  cases hg
  have hfit2 : BloomFilter.Fits L f := by
    unfold BloomFilter.Fits at hfit ⊢
    rw [hM, hK, hS]
    exact hfit
  exact ⟨f, Deserialize_Serialize L hv hfit2, rfl, rfl, rfl, rfl, fun _ => rfl⟩

/-- Instance of C2: the sample filter after one insertion. -/
theorem filter_serialize_roundtrip_witness :
    (NewBloomFilter sampleSizing 5 (1 / 2) 7 = .ok ⟨64, 12, 7, [0]⟩ ∧
        BloomFilter.Fits sampleLayout ⟨64, 12, 7, [0]⟩ ∧
        insertAll sampleHash ⟨64, 12, 7, [0]⟩ [[1, 2]] =
          some ⟨64, 12, 7, [306319559709967428]⟩) ∧
      ∃ f2, Deserialize sampleLayout
            (Serialize sampleLayout ⟨64, 12, 7, [306319559709967428]⟩) = .ok f2 ∧
        f2.M = 64 ∧ f2.K = 12 ∧ f2.Seed = 7 ∧ f2.Bits = [306319559709967428] ∧
        ∀ x, Exist sampleHash f2 x =
          Exist sampleHash ⟨64, 12, 7, [306319559709967428]⟩ x :=
  ⟨⟨sample_new, ⟨by decide, by decide, by decide⟩, by decide⟩,
    filter_serialize_roundtrip sampleSizing sampleHash sampleLayout 5 (1 / 2) 7 ⟨64, 12, 7, [0]⟩
      sample_new ⟨by decide, by decide, by decide⟩ [[1, 2]] ⟨64, 12, 7, [306319559709967428]⟩
      (by decide)⟩

/-- C4: a byte string shorter than the header plus the words that its
declared `bitLength` requires is rejected by `Deserialize` with `DecodeError`;
no filter is returned. -/
theorem Deserialize_rejects_truncated (L : Layout) (data : Buffer)
    (hshort : data.length <
      L.headerSize + 8 * wordCount (DeserializeUint L.mT data L.mT.bytes).1) :
    Deserialize L data = .error .DecodeError ∧ ∀ f, Deserialize L data ≠ .ok f := by
  have herr : Deserialize L data = .error .DecodeError := by
    unfold Deserialize
    by_cases h1 : data.length < L.headerSize
    · rw [if_pos h1]
    · rw [if_neg h1]
      simp only
      rw [if_pos]
      rw [DeserializeUint_snd, DeserializeUint_snd, DeserializeUint_snd]
      simp only [List.length_drop]
      unfold Layout.headerSize at hshort h1
      omega
  refine ⟨herr, ?_⟩
  intro f hf
  rw [herr] at hf
  cases hf

/-- Instance of C4: a header that declares 64 bits followed by three bytes only. -/
theorem Deserialize_rejects_truncated_witness :
    [64, 0, 0, 0, 12, 0, 0, 0, 7, 0, 0, 0, 0, 0, 0, 0, 1, 2, 3].length <
        sampleLayout.headerSize + 8 * wordCount (DeserializeUint sampleLayout.mT
          [64, 0, 0, 0, 12, 0, 0, 0, 7, 0, 0, 0, 0, 0, 0, 0, 1, 2, 3] sampleLayout.mT.bytes).1 ∧
      (Deserialize sampleLayout [64, 0, 0, 0, 12, 0, 0, 0, 7, 0, 0, 0, 0, 0, 0, 0, 1, 2, 3] =
          .error .DecodeError ∧
        ∀ f, Deserialize sampleLayout
          [64, 0, 0, 0, 12, 0, 0, 0, 7, 0, 0, 0, 0, 0, 0, 0, 1, 2, 3] ≠ .ok f) :=
  ⟨by decide, Deserialize_rejects_truncated sampleLayout
    [64, 0, 0, 0, 12, 0, 0, 0, 7, 0, 0, 0, 0, 0, 0, 0, 1, 2, 3] (by decide)⟩

/-! ## Further claims on `NextPowerOfTwo` -/

/-- The number `2^k - 1` has exactly `k` binary digits. -/
theorem size_pred_two_pow (k : Nat) : Nat.size (2 ^ k - 1) = k := by
  apply le_antisymm
  · exact Nat.size_le.mpr (Nat.sub_lt (Nat.pos_pow_of_pos k (by norm_num)) (by norm_num))
  · have h := Nat.lt_size_self (2 ^ k - 1)
    have hpos : 0 < 2 ^ k := Nat.pos_pow_of_pos k (by norm_num)
    have hle : 2 ^ k ≤ 2 ^ Nat.size (2 ^ k - 1) := by omega
    exact (Nat.pow_le_pow_iff_right (by norm_num)).mp hle

theorem NextPowerOfTwo_two_pow (k : Nat) (hk : k ≤ 31) : NextPowerOfTwo (2 ^ k) = 2 ^ k := by
  have h1 : 1 ≤ 2 ^ k := Nat.one_le_two_pow
  have h31 : 2 ^ k ≤ 2 ^ 31 := Nat.pow_le_pow_right (by norm_num) hk
  rw [(NextPowerOfTwo_eq_of_le (2 ^ k) h1 h31).1, size_pred_two_pow]

theorem NextPowerOfTwo_zero : NextPowerOfTwo 0 = 0 := by decide

theorem NextPowerOfTwo_above (n : Nat) (hlo : 2 ^ 31 < n) (hhi : n < 2 ^ 32) :
    NextPowerOfTwo n = 0 := by
  have hdec : (n + (2 ^ 32 - 1)) % 2 ^ 32 = n - 1 := by omega
  have hs : Nat.size (n - 1) = 32 := by
    apply le_antisymm
    · exact Nat.size_le.mpr (by omega)
    · exact Nat.lt_size.mpr (by omega)
  rw [NextPowerOfTwo_eq, hdec, hs]
  norm_num

/-- C13: for `1 ≤ n ≤ 2^31` and every `uint64` `x`, `x mod NextPowerOfTwo(n)`
equals `x AND (NextPowerOfTwo(n) - 1)`, and the masked index lies in
`[0, NextPowerOfTwo(n))`. -/
theorem mod_eq_mask (n x : Nat) (h1 : 1 ≤ n) (h31 : n ≤ 2 ^ 31) (_hx : x < 2 ^ 64) :
    x % NextPowerOfTwo n = x &&& (NextPowerOfTwo n - 1) ∧
      x &&& (NextPowerOfTwo n - 1) < NextPowerOfTwo n := by
  obtain ⟨he, _⟩ := NextPowerOfTwo_eq_of_le n h1 h31
  rw [he, Nat.and_pow_two_sub_one_eq_mod]
  exact ⟨rfl, Nat.mod_lt _ (Nat.pos_pow_of_pos _ (by norm_num))⟩

/-- Instance of C13: `n = 1000` and `x = 123456789`. -/
theorem mod_eq_mask_witness :
    (1 ≤ 1000 ∧ 1000 ≤ 2 ^ 31 ∧ 123456789 < 2 ^ 64) ∧
      (123456789 % NextPowerOfTwo 1000 = 123456789 &&& (NextPowerOfTwo 1000 - 1) ∧
        123456789 &&& (NextPowerOfTwo 1000 - 1) < NextPowerOfTwo 1000) :=
  ⟨by decide, mod_eq_mask 1000 123456789 (by decide) (by decide) (by decide)⟩

/-- C14: for `64 ≤ n ≤ 2^31`, `NextPowerOfTwo(n)` is a multiple of 64, so
`NextPowerOfTwo(n) / 64` words of 64 bits hold exactly `NextPowerOfTwo(n)` bits. -/
theorem NextPowerOfTwo_word_aligned (n : Nat) (h64 : 64 ≤ n) (h31 : n ≤ 2 ^ 31) :
    NextPowerOfTwo n % 64 = 0 ∧
      NextPowerOfTwo n / 64 * 64 = NextPowerOfTwo n ∧
      NextPowerOfTwo n ≤ NextPowerOfTwo n / 64 * 64 := by
  obtain ⟨he, _⟩ := NextPowerOfTwo_eq_of_le n (by omega) h31
  have hgt := Nat.lt_size_self (n - 1)
  have h6 : 6 ≤ Nat.size (n - 1) := by
    by_contra hcon
    have : 2 ^ Nat.size (n - 1) ≤ 2 ^ 5 := Nat.pow_le_pow_right (by norm_num) (by omega)
    omega
  have hdvd : 64 ∣ NextPowerOfTwo n := by
    rw [he, show (64 : Nat) = 2 ^ 6 by norm_num]
    exact Nat.pow_dvd_pow 2 h6
  have hmod := Nat.mod_eq_zero_of_dvd hdvd
  have hdiv := Nat.div_mul_cancel hdvd
  exact ⟨hmod, hdiv, by omega⟩

/-- Instance of C14: `n = 1000`. -/
theorem NextPowerOfTwo_word_aligned_witness :
    (64 ≤ 1000 ∧ 1000 ≤ 2 ^ 31) ∧
      (NextPowerOfTwo 1000 % 64 = 0 ∧
        NextPowerOfTwo 1000 / 64 * 64 = NextPowerOfTwo 1000 ∧
        NextPowerOfTwo 1000 ≤ NextPowerOfTwo 1000 / 64 * 64) :=
  ⟨by decide, NextPowerOfTwo_word_aligned 1000 (by decide) (by decide)⟩

/-- C17, as stated, fails at `n = 0`: the result `0` is not a power of two, but
it is at least `n`. -/
theorem NextPowerOfTwo_degenerate_counterexample :
    NextPowerOfTwo 0 = 0 ∧ 0 ≤ NextPowerOfTwo 0 ∧
      ¬ (∀ n, n < 2 ^ 32 → (n = 0 ∨ 2 ^ 31 < n) →
        (¬ ∃ k, NextPowerOfTwo n = 2 ^ k) ∧ ¬ n ≤ NextPowerOfTwo n) := by
  refine ⟨NextPowerOfTwo_zero, Nat.zero_le _, ?_⟩
  intro h
  exact (h 0 (by norm_num) (Or.inl rfl)).2 (Nat.zero_le _)

/-- C17 (amended): `NextPowerOfTwo(0) = 0` and `NextPowerOfTwo(n) = 0` for every
`uint32` `n > 2^31`; outside `1..2^31` the result is not a power of two, and for
`n > 2^31` it is below `n`. -/
theorem NextPowerOfTwo_degenerate (n : Nat) (hn : n < 2 ^ 32) (hout : n = 0 ∨ 2 ^ 31 < n) :
    NextPowerOfTwo n = 0 ∧ (¬ ∃ k, NextPowerOfTwo n = 2 ^ k) ∧
      (2 ^ 31 < n → ¬ n ≤ NextPowerOfTwo n) := by
  have h0 : NextPowerOfTwo n = 0 := by
    rcases hout with h | h
    · rw [h]; exact NextPowerOfTwo_zero
    · exact NextPowerOfTwo_above n h hn
  refine ⟨h0, ?_, ?_⟩
  · rintro ⟨k, hk⟩
    rw [h0] at hk
    have : 0 < 2 ^ k := Nat.pos_pow_of_pos k (by norm_num)
    omega
  · intro hlo hle
    rw [h0] at hle
    omega

/-- Instance of C17 (amended): `n = 2^31 + 1`. -/
theorem NextPowerOfTwo_degenerate_witness :
    (2 ^ 31 + 1 < 2 ^ 32 ∧ (2 ^ 31 + 1 = 0 ∨ 2 ^ 31 < 2 ^ 31 + 1)) ∧
      (NextPowerOfTwo (2 ^ 31 + 1) = 0 ∧ (¬ ∃ k, NextPowerOfTwo (2 ^ 31 + 1) = 2 ^ k) ∧
        (2 ^ 31 < 2 ^ 31 + 1 → ¬ 2 ^ 31 + 1 ≤ NextPowerOfTwo (2 ^ 31 + 1))) :=
  ⟨by decide, NextPowerOfTwo_degenerate (2 ^ 31 + 1) (by decide) (by decide)⟩

/-- C18: `NextPowerOfTwo(NextPowerOfTwo(n)) = NextPowerOfTwo(n)` for every
`uint32` `n`, and `NextPowerOfTwo(2^k) = 2^k` for every `k` in `0..31`. -/
theorem NextPowerOfTwo_idempotent (n k : Nat) (_hn : n < 2 ^ 32) (hk : k ≤ 31) :
    NextPowerOfTwo (NextPowerOfTwo n) = NextPowerOfTwo n ∧ NextPowerOfTwo (2 ^ k) = 2 ^ k := by
  refine ⟨?_, NextPowerOfTwo_two_pow k hk⟩
  rcases NextPowerOfTwo_zero_or_pow n with h0 | ⟨j, hj, hj2⟩
  · rw [h0]; exact NextPowerOfTwo_zero
  · rw [hj2]; exact NextPowerOfTwo_two_pow j hj

/-- Instance of C18: `n = 2^32 - 1` (which rounds to `0`) and `k = 31`. -/
theorem NextPowerOfTwo_idempotent_witness :
    (2 ^ 32 - 1 < 2 ^ 32 ∧ 31 ≤ 31) ∧
      (NextPowerOfTwo (NextPowerOfTwo (2 ^ 32 - 1)) = NextPowerOfTwo (2 ^ 32 - 1) ∧
        NextPowerOfTwo (2 ^ 31) = 2 ^ 31) :=
  ⟨by decide, NextPowerOfTwo_idempotent (2 ^ 32 - 1) 31 (by decide) (by decide)⟩

/-! ## Further claims on the integer codec -/

theorem leSum_ge_length (buf : List Nat) (k : Nat) (hk : buf.length ≤ k) :
    leSum buf k = leSum buf buf.length := by
  induction k, hk using Nat.le_induction with
  | base => rfl
  | succ k hk ih =>
    rw [leSum_succ, ih, List.getD_eq_default _ _ hk, Nat.zero_mul, Nat.add_zero]

theorem leSum_add_mod (buf : List Nat) (h : Buffer.IsBytes buf) (j d : Nat) :
    leSum buf (j + d) % 256 ^ j = leSum buf j := by
  induction d with
  | zero => exact Nat.mod_eq_of_lt (leSum_lt h j)
  | succ d ih =>
    rw [← Nat.add_assoc, leSum_succ, pow_add, ← Nat.mul_assoc,
      Nat.mul_comm (buf.getD (j + d) 0) (256 ^ j), Nat.mul_assoc, Nat.add_mul_mod_self_left, ih]

theorem two_pow_eight_mul (m : Nat) : (256 : Nat) ^ m = 2 ^ (8 * m) := by
  rw [show (256 : Nat) = 2 ^ 8 by norm_num, ← pow_mul]

/-- C15: for every `size` and every `uint64` `value`, encoding on an empty
buffer and decoding as `uint64` returns `value mod 2^(8*min(size, 8))` and
empties the buffer; for `size ≥ 8` that is `value` itself, and the bytes
written at positions `8` and above are zero. -/
theorem serialize_deserialize_truncates (value size : Nat) (hv : value < 2 ^ 64) :
    DeserializeUint .uint64 (SerializeUint [] value size) size =
        (value % 2 ^ (8 * min size 8), []) ∧
      (8 ≤ size → (DeserializeUint .uint64 (SerializeUint [] value size) size).1 = value) ∧
      ∀ i, 8 ≤ i → (SerializeUint [] value size).getD i 0 = 0 := by
  have h := @decode_encode_append .uint64 value size [] (by intro b hb; simp at hb)
  rw [List.append_nil, two_pow_eight_mul] at h
  have hlt : value % 2 ^ (8 * min size 8) < 2 ^ 64 :=
    lt_of_le_of_lt (Nat.mod_le _ _) hv
  have hmain : DeserializeUint .uint64 (SerializeUint [] value size) size =
      (value % 2 ^ (8 * min size 8), []) := by
    rw [h]
    congr 1
    exact Nat.mod_eq_of_lt hlt
  refine ⟨hmain, ?_, ?_⟩
  · intro h8
    rw [hmain, Nat.min_eq_right h8]
    exact Nat.mod_eq_of_lt hv
  · intro i hi
    rw [SerializeUint_eq, List.nil_append]
    by_cases his : i < size
    · have e := encode_getD value size [] i his
      rw [List.append_nil] at e
      rw [e]
      have hbig : value < 2 ^ (8 * i) :=
        lt_of_lt_of_le hv (Nat.pow_le_pow_right (by norm_num) (by omega))
      rw [Nat.div_eq_of_lt hbig]
    · exact List.getD_eq_default _ _ (by simp; omega)

/-- Instance of C15: a value of three bytes in a field of two bytes. -/
theorem serialize_deserialize_truncates_witness :
    70000 < 2 ^ 64 ∧
      (DeserializeUint .uint64 (SerializeUint [] 70000 2) 2 =
          (70000 % 2 ^ (8 * min 2 8), []) ∧
        (8 ≤ 2 → (DeserializeUint .uint64 (SerializeUint [] 70000 2) 2).1 = 70000) ∧
        ∀ i, 8 ≤ i → (SerializeUint [] 70000 2).getD i 0 = 0) :=
  ⟨by decide, serialize_deserialize_truncates 70000 2 (by decide)⟩

/-- C16: on a buffer of `r < size` bytes, `DeserializeUint[uint64](buf, size)`
returns the sum of `b_i * 256^i` over `i < min(r, 8)` (the missing bytes read as
zero) and leaves the buffer empty. -/
theorem DeserializeUint_short_buffer (buf : Buffer) (size : Nat) (hb : Buffer.IsBytes buf)
    (hr : buf.length < size) :
    DeserializeUint .uint64 buf size =
      (∑ i in Finset.range (min buf.length 8), buf.getD i 0 * 256 ^ i, []) := by
  rw [DeserializeUint_eq .uint64 hb size, List.drop_of_length_le (by omega)]
  congr 1
  simp only [UintT.bits]
  rw [Nat.mod_eq_of_lt (leSum_lt_two_pow_64 hb _ (Nat.min_le_right _ _))]
  by_cases h8 : 8 ≤ buf.length
  · rw [Nat.min_eq_right h8, Nat.min_eq_right (show 8 ≤ size by omega)]
    rfl
  · rw [Nat.min_eq_left (show buf.length ≤ 8 by omega),
      leSum_ge_length buf (min size 8) (by omega)]
    rfl

/-- Instance of C16: two bytes in the buffer, three requested. -/
theorem DeserializeUint_short_buffer_witness :
    (Buffer.IsBytes [2, 1] ∧ [2, 1].length < 3) ∧
      DeserializeUint .uint64 [2, 1] 3 =
        (∑ i in Finset.range (min [2, 1].length 8), [2, 1].getD i 0 * 256 ^ i, []) :=
  ⟨by decide, DeserializeUint_short_buffer [2, 1] 3 (by decide) (by decide)⟩

/-- C19: `DeserializeUint[uint32]` returns the `uint64` result modulo `2^32` and
consumes the same bytes; a `uint32` written on 4 bytes is read back; decoding
a field of at least 4 bytes as `uint32` keeps bytes `0..3` only. -/
theorem DeserializeUint_uint32 (buf : Buffer) (size v : Nat) (hb : Buffer.IsBytes buf)
    (hv : v < 2 ^ 32) :
    (DeserializeUint .uint32 buf size).1 = (DeserializeUint .uint64 buf size).1 % 2 ^ 32 ∧
      (DeserializeUint .uint32 buf size).2 = (DeserializeUint .uint64 buf size).2 ∧
      DeserializeUint .uint32 (SerializeUint [] v 4) 4 = (v, []) ∧
      (4 ≤ size →
        (DeserializeUint .uint32 buf size).1 = ∑ i in Finset.range 4, buf.getD i 0 * 256 ^ i) := by
  have hfst : (DeserializeUint .uint32 buf size).1 =
      (DeserializeUint .uint64 buf size).1 % 2 ^ 32 := by
    simp only [DeserializeUint, UintT.bits]
    exact (Nat.mod_mod_of_dvd _ (Nat.pow_dvd_pow 2 (by norm_num))).symm
  refine ⟨hfst, rfl, ?_, ?_⟩
  · have h := @field_roundtrip .uint32 v hv [] (by intro b hb; simp at hb)
    rw [List.append_nil] at h
    exact h
  · intro h4
    rw [DeserializeUint_eq .uint32 hb size]
    simp only [UintT.bits]
    obtain ⟨d, hd⟩ : ∃ d, min size 8 = 4 + d := ⟨min size 8 - 4, by omega⟩
    rw [hd, show (2 : Nat) ^ 32 = 256 ^ 4 by norm_num, leSum_add_mod buf hb 4 d]
    rfl

/-- Instance of C19: a field of six bytes decoded as `uint32`. -/
theorem DeserializeUint_uint32_witness :
    (Buffer.IsBytes [1, 2, 3, 4, 5, 6] ∧ 305419896 < 2 ^ 32) ∧
      ((DeserializeUint .uint32 [1, 2, 3, 4, 5, 6] 6).1 =
          (DeserializeUint .uint64 [1, 2, 3, 4, 5, 6] 6).1 % 2 ^ 32 ∧
        (DeserializeUint .uint32 [1, 2, 3, 4, 5, 6] 6).2 =
          (DeserializeUint .uint64 [1, 2, 3, 4, 5, 6] 6).2 ∧
        DeserializeUint .uint32 (SerializeUint [] 305419896 4) 4 = (305419896, []) ∧
        (4 ≤ 6 →
          (DeserializeUint .uint32 [1, 2, 3, 4, 5, 6] 6).1 =
            ∑ i in Finset.range 4, [1, 2, 3, 4, 5, 6].getD i 0 * 256 ^ i)) :=
  ⟨by decide, DeserializeUint_uint32 [1, 2, 3, 4, 5, 6] 6 305419896 (by decide) (by decide)⟩

/-! ## Further claims on the filter engine -/

theorem shift_and_one_of_testBit (w r : Nat) (h : w.testBit r = true) :
    (w >>> r) &&& 1 = 1 := by
  rw [Nat.testBit_to_div_mod, decide_eq_true_iff] at h
  rw [Nat.and_one_is_mod, Nat.shiftRight_eq_div_pow]
  exact h

theorem Hash_length (H : BaseHash) (f : BloomFilter) (data : List Nat) :
    (Hash H f data).length = f.K := by
  simp [Hash]

/-- C11: on a filter with a positive bit length, `Hash(x)` returns exactly `K`
indices, each in `[0, M)`, and the sequence is a function of `x` and of
`(M, K, Seed)` alone, so every call returns the same sequence in the same
order. -/
theorem Hash_shape (H : BaseHash) (f : BloomFilter) (x : List Nat) (hM : 0 < f.M) :
    (Hash H f x).length = f.K ∧ (∀ i ∈ Hash H f x, i < f.M) ∧
      ∀ g : BloomFilter, g.M = f.M → g.K = f.K → g.Seed = f.Seed → Hash H g x = Hash H f x :=
  ⟨Hash_length H f x, Hash_lt H hM x, fun _ hgM hgK hgS => Hash_congr H hgM hgK hgS x⟩

/-- Instance of C11: the sample filter and the key `[1, 2]`. -/
theorem Hash_shape_witness :
    0 < (BloomFilter.mk 64 12 7 [0]).M ∧
      ((Hash sampleHash ⟨64, 12, 7, [0]⟩ [1, 2]).length = (BloomFilter.mk 64 12 7 [0]).K ∧
        (∀ i ∈ Hash sampleHash ⟨64, 12, 7, [0]⟩ [1, 2], i < (BloomFilter.mk 64 12 7 [0]).M) ∧
        ∀ g : BloomFilter, g.M = (BloomFilter.mk 64 12 7 [0]).M →
          g.K = (BloomFilter.mk 64 12 7 [0]).K → g.Seed = (BloomFilter.mk 64 12 7 [0]).Seed →
          Hash sampleHash g [1, 2] = Hash sampleHash ⟨64, 12, 7, [0]⟩ [1, 2]) :=
  ⟨by decide, Hash_shape sampleHash ⟨64, 12, 7, [0]⟩ [1, 2] (by decide)⟩

/-- C12: on a valid filter `Insert(x)` succeeds, and afterwards, for every index
`h` of `Hash(x)`, the bit at offset `h % 64` of the word `Bits[h / 64]` is `1`. -/
theorem Insert_sets_bits (H : BaseHash) (f : BloomFilter) (x : List Nat) (hv : f.Valid) :
    ∃ g, Insert H f x = some g ∧ Hash H g x = Hash H f x ∧
      ∀ h ∈ Hash H g x,
        h / 64 < g.Bits.length ∧ (g.Bits.getD (h / 64) 0 >>> (h % 64)) &&& 1 = 1 := by
  obtain ⟨g, hg, hgM, hgK, hgS, hgv, hset, _⟩ := Insert_spec H hv x
  have hh := Hash_congr H hgM hgK hgS x
  refine ⟨g, hg, hh, ?_⟩
  intro h hmem
  refine ⟨valid_index hgv (Hash_lt H hgv.1 x h hmem), ?_⟩
  rw [hh] at hmem
  exact shift_and_one_of_testBit _ _ (hset h hmem)

/-- Instance of C12: the key `[1, 2]` inserted into the sample filter. -/
theorem Insert_sets_bits_witness :
    BloomFilter.Valid ⟨64, 12, 7, [0]⟩ ∧
      ∃ g, Insert sampleHash ⟨64, 12, 7, [0]⟩ [1, 2] = some g ∧
        Hash sampleHash g [1, 2] = Hash sampleHash ⟨64, 12, 7, [0]⟩ [1, 2] ∧
        ∀ h ∈ Hash sampleHash g [1, 2],
          h / 64 < g.Bits.length ∧ (g.Bits.getD (h / 64) 0 >>> (h % 64)) &&& 1 = 1 :=
  ⟨⟨by decide, by decide, by decide⟩,
    Insert_sets_bits sampleHash ⟨64, 12, 7, [0]⟩ [1, 2] ⟨by decide, by decide, by decide⟩⟩

end Filters
